import Mathlib

set_option maxRecDepth 100000

/-!  Formal model of the prediction-market smart contract (`src/lib.rs`).

The contract exposes three entry points: `initmarket`, `bet` and `closemarket`,
operating on the chain's key-value state.  A panicking call (`require`,
`expect`, `unwrap`) aborts and the host rolls back every state write of that
call, so an aborting call is modelled as returning the unchanged input state
together with the rejection it reports.  Bet amounts are `i32`; timestamps and
transfer amounts are `i64`; `i32` addition wraps modulo 2^32 in release builds
(`wrap32` below).  The payout of `src/lib.rs:210` is computed in 32-bit
IEEE-754 binary floating point; it is modelled exactly by integer arithmetic
on significand/exponent pairs (`F32` below), with round-to-nearest, ties to
even, at 24 significant bits.  Every value that reaches the float pipeline
comes from an `i32`, so all intermediate values are normal (no subnormals,
no overflow to infinity), and the model covers them exactly. -/

/-- Two's-complement wrap-around of an `i32` arithmetic result. -/
def wrap32 (z : ℤ) : ℤ := (z + 2^31) % 2^32 - 2^31

/-- Fuelled binary logarithm; the fixed fuel in `ilog2` covers every number
arising in this model. -/
def ilog2fuel : ℕ → ℕ → ℕ
  | 0, _ => 0
  | f+1, n => if n ≤ 1 then 0 else ilog2fuel f (n / 2) + 1

/-- Binary logarithm (floor), valid for `n < 2^1000`. -/
def ilog2 (n : ℕ) : ℕ := ilog2fuel 1000 n

/-- An IEEE-754 binary32 value represented exactly: the pair `(m, e)` stands
for `m * 2^(e-23)` with `2^23 ≤ |m| < 2^24`, or zero as `(0, 0)`. -/
abbrev F32 := ℤ × ℤ

/-- Round the exact rational `(N / D) * 2^k` (with `D ≠ 0`) to the nearest
binary32 value, ties to even: the significand is scaled into `[2^23, 2^24)`
and rounded by comparing twice the division remainder with the divisor. -/
def roundQ2 (N D k : ℤ) : F32 :=
  if N = 0 then (0, 0)
  else
    let sgn : ℤ := if (0 < N ∧ 0 < D) ∨ (N < 0 ∧ D < 0) then 1 else -1
    let n := N.natAbs
    let d := D.natAbs
    let L : ℤ := (ilog2 (n * 2^250 / d) : ℤ) - 250 + k
    let t : ℤ := k + 23 - L
    let Nsc := n * 2^(t.toNat)
    let Dsc := d * 2^((-t).toNat)
    let q := Nsc / Dsc
    let r := Nsc % Dsc
    let m0 := if 2*r < Dsc then q else if Dsc < 2*r then q + 1
              else if q % 2 = 0 then q else q + 1
    if m0 = 2^24 then (sgn * 2^23, L + 1) else (sgn * (m0 : ℤ), L)

/-- Rust `as f32` on an `i32` (or an exactly representable `i64`). -/
def i32ToF32 (z : ℤ) : F32 := roundQ2 z 1 0

/-- binary32 division (both operands nonzero and normal). -/
def f32div (x y : F32) : F32 := roundQ2 x.1 y.1 (x.2 - y.2)

/-- binary32 multiplication (operands normal, result in normal range). -/
def f32mul (x y : F32) : F32 := roundQ2 (x.1 * y.1) 1 (x.2 + y.2 - 46)

/-- Rust `as i64` on a finite `f32` value: truncation toward zero. -/
def f32toI64 (x : F32) : ℤ :=
  let s : ℤ := x.2 - 23
  if 0 ≤ s then x.1 * 2^(s.toNat) else Int.tdiv x.1 (2^((-s).toNat))

/-- A stored bet: the amount of IOTA sent (an `i32`) and the outcome value the
bet is for (the `BETVALUE` parameter). -/
structure Bet where
  betamount : ℤ
  betisforvalue : String
deriving DecidableEq, Repr

/-- The jsonified `ContainerOfBets` map: betting wallet address ↦ `Bet`. -/
abbrev Ledger := List (String × Bet)

/-- `HashMap::insert`: replace the entry with this key, or add a new one. -/
def insertBet : Ledger → String → Bet → Ledger
  | [], k, b => [(k, b)]
  | (k', b') :: t, k, b =>
      if k' = k then (k, b) :: t else (k', b') :: insertBet t k b

/-- The bettor addresses present in the container. -/
def keysOf (l : Ledger) : List String := l.map Prod.fst

/-- `HashMap::get` on the container. -/
def lookupBet : Ledger → String → Option Bet
  | [], _ => none
  | (k', b) :: t, k => if k' = k then some b else lookupBet t k

/-- Insert/replace in the per-caller `betvalue` string map. -/
def insertStr : List (String × String) → String → String → List (String × String)
  | [], k, v => [(k, v)]
  | (k', v') :: t, k, v =>
      if k' = k then (k, v) :: t else (k', v') :: insertStr t k v

/-- The chain-state entries the contract reads and writes, together with the
immutable contract creator taken from the call context.  `container = none`
models the `containerofbetsjson` entry holding the empty string (its default);
`marketclosed` defaults to the empty string before `initmarket` ever runs. -/
structure ContractState where
  creator : String
  marketclosed : String
  betenddatetime : ℤ
  container : Option Ledger
  betvaluemap : List (String × String)
deriving DecidableEq, Repr

/-- The ways a call can end without doing its main work.  `Unauthorized`,
`BadDeadlineFormat`, `MissingParameter` and `AmountParse` are panics (the call
aborts and the host rolls back its writes); the others are soft branches that
log and return. -/
inductive Rejection where
  | Unauthorized
  | BadDeadlineFormat
  | MissingParameter
  | AlreadyClosed
  | TooEarly
  | NoBets
  | BettingClosed
  | AmountParse
deriving DecidableEq, Repr

/-- Result of a call: `ok` exactly when the main work of the call ran. -/
inductive CallR where
  | ok
  | rej (r : Rejection)
deriving DecidableEq, Repr

/-- Gregorian leap year. -/
def isLeap (y : ℕ) : Bool := y % 4 = 0 ∧ (y % 100 ≠ 0 ∨ y % 400 = 0)

/-- Days in a month of the proleptic Gregorian calendar. -/
def daysInMonth (y mo : ℕ) : ℕ :=
  if mo = 2 then (if isLeap y then 29 else 28)
  else if mo = 4 ∨ mo = 6 ∨ mo = 9 ∨ mo = 11 then 30 else 31

/-- Days since 1970-01-01 of a civil date (days-from-civil algorithm). -/
def epochDays (y mo da : ℕ) : ℤ :=
  let y' : ℤ := if mo ≤ 2 then (y : ℤ) - 1 else (y : ℤ)
  let era : ℤ := Int.ediv y' 400
  let yoe : ℤ := y' - era * 400
  let mp : ℤ := ((mo : ℤ) + 9) % 12
  let doy : ℤ := Int.ediv (153 * mp + 2) 5 + (da : ℤ) - 1
  let doe : ℤ := yoe * 365 + Int.ediv yoe 4 - Int.ediv yoe 100 + doy
  era * 146097 + doe - 719468

/-- Numeric value of a decimal digit character. -/
def digitVal (c : Char) : ℕ := c.toNat - 48

/-- Modelled from the spec: the external `chrono` parser applied to the fixed
pattern `%Y-%m-%d %H:%M` (UTC), converted to epoch seconds; `none` models a
parse failure, which panics inside `initmarket`.  The `chrono` crate is not
part of this repository, so its accepted language is taken from the spec:
"an ISO-8601-like date-time string in the fixed pattern YYYY-MM-DD HH:MM
interpreted as UTC, converted to epoch seconds". -/
def parseBetEndUTC (s : String) : Option ℤ :=
  match s.toList with
  | [y1, y2, y3, y4, h1, m1, m2, h2, d1, d2, sp, hh1, hh2, co, mi1, mi2] =>
    if y1.isDigit ∧ y2.isDigit ∧ y3.isDigit ∧ y4.isDigit ∧ h1 = '-' ∧
       m1.isDigit ∧ m2.isDigit ∧ h2 = '-' ∧ d1.isDigit ∧ d2.isDigit ∧
       sp = ' ' ∧ hh1.isDigit ∧ hh2.isDigit ∧ co = ':' ∧
       mi1.isDigit ∧ mi2.isDigit then
      let y := 1000 * digitVal y1 + 100 * digitVal y2 + 10 * digitVal y3 + digitVal y4
      let mo := 10 * digitVal m1 + digitVal m2
      let da := 10 * digitVal d1 + digitVal d2
      let hh := 10 * digitVal hh1 + digitVal hh2
      let mi := 10 * digitVal mi1 + digitVal mi2
      if 1 ≤ mo ∧ mo ≤ 12 ∧ 1 ≤ da ∧ da ≤ daysInMonth y mo ∧ hh ≤ 23 ∧ mi ≤ 59 then
        some (epochDays y mo da * 86400 + (hh : ℤ) * 3600 + (mi : ℤ) * 60)
      else none
    else none
  | _ => none

/-- `initmarket` (`src/lib.rs:39`): creator-only; writes the `marketclosed`
flag as the string "false" and stores `betenddatetime` (0 when the
`BETENDUTC` parameter is empty or absent, else the parsed timestamp).
An authorization or parse panic aborts the call with every write of the call
rolled back by the host. -/
def initmarket (s : ContractState) (caller : String) (betendutc : String) :
    CallR × ContractState :=
  if caller ≠ s.creator then (.rej .Unauthorized, s)
  else if betendutc = "" then
    (.ok, { s with marketclosed := "false", betenddatetime := 0 })
  else
    match parseBetEndUTC betendutc with
    | none => (.rej .BadDeadlineFormat, s)
    | some t => (.ok, { s with marketclosed := "false", betenddatetime := t })

def i32min : ℤ := -2147483648

def i32max : ℤ := 2147483647

/-- `bet` (`src/lib.rs:87`): records the caller's wager when the deadline gate
`betenddatetime == 0 || (betenddatetime != 0 && currtime <= betenddatetime)`
passes.  `incoming` is the IOTA sent with the call (an `i64` balance); the
code round-trips it through `parse::<i32>()`, so a value outside `i32` panics
and the call is rolled back.  On success it writes the caller's per-account
`betvalue` state entry and replaces the caller's entry in the container. -/
def bet (s : ContractState) (caller : String) (now incoming : ℤ)
    (betvalue : Option String) : CallR × ContractState :=
  if s.betenddatetime = 0 ∨ (s.betenddatetime ≠ 0 ∧ now ≤ s.betenddatetime) then
    match betvalue with
    | none => (.rej .MissingParameter, s)
    | some v =>
      if incoming < i32min ∨ i32max < incoming then (.rej .AmountParse, s)
      else
        (.ok, { s with
                  betvaluemap := insertStr s.betvaluemap caller v,
                  container :=
                    some (insertBet (s.container.getD []) caller ⟨incoming, v⟩) })
  else (.rej .BettingClosed, s)

/-- `totalbetamount` (`src/lib.rs:186`): the pool, accumulated in `i32`. -/
def totalPoolW (l : Ledger) : ℤ :=
  l.foldl (fun acc e => wrap32 (acc + e.2.betamount)) 0

/-- The `betvalue_totalbetamount` entry for value `v` (`src/lib.rs:184`),
accumulated in `i32`. -/
def totalForValueW (l : Ledger) (v : String) : ℤ :=
  l.foldl (fun acc e =>
    if e.2.betisforvalue = v then wrap32 (acc + e.2.betamount) else acc) 0

/-- The f32 payout of `src/lib.rs:210`:
`((betamount as f32 / total as f32) * totalbetamount as f32) as i64`.
When the divisor is zero the division yields NaN or an infinity; Rust's
`as i64` maps NaN to 0 and saturates infinities. -/
def winamountF32 (a t pool : ℤ) : ℤ :=
  let af := i32ToF32 a
  let tf := i32ToF32 t
  let pf := i32ToF32 pool
  if tf.1 = 0 then
    if af.1 = 0 ∨ pf.1 = 0 then 0
    else if (0 < af.1 ∧ 0 < pf.1) ∨ (af.1 < 0 ∧ pf.1 < 0) then 9223372036854775807
    else -9223372036854775808
  else f32toI64 (f32mul (f32div af tf) pf)

/-- The settlement loop (`src/lib.rs:206`): one transfer per bet on the
winning value whose computed payout is positive. -/
def settle (l : Ledger) (winning : String) : List (String × ℤ) :=
  let pool := totalPoolW l
  let tWin := totalForValueW l winning
  l.filterMap fun e =>
    if e.2.betisforvalue = winning then
      let w := winamountF32 e.2.betamount tWin pool
      if 0 < w then some (e.1, w) else none
    else none

/-- `closemarket` (`src/lib.rs:145`): creator-only; requires the winning
`BETVALUE` parameter; runs only when `marketclosed` is exactly "false" and
the deadline gate `betenddatetime == 0 || currtime > betenddatetime` passes;
then sets the flag to "true" and, when at least one bet is stored, pays the
winners.  Note the flag is set (`src/lib.rs:171`) before the container is
examined, so the two no-bets branches keep the flag write. -/
def closemarket (s : ContractState) (caller : String)
    (betvaluewinning : Option String) (now : ℤ) :
    CallR × ContractState × List (String × ℤ) :=
  if caller ≠ s.creator then (.rej .Unauthorized, s, [])
  else
    match betvaluewinning with
    | none => (.rej .MissingParameter, s, [])
    | some winning =>
      if s.marketclosed = "false" then
        if s.betenddatetime = 0 ∨ (s.betenddatetime ≠ 0 ∧ s.betenddatetime < now) then
          let s' := { s with marketclosed := "true" }
          match s.container with
          | none => (.rej .NoBets, s', [])
          | some led =>
            if 1 ≤ led.length then (.ok, s', settle led winning)
            else (.rej .NoBets, s', [])
        else (.rej .TooEarly, s, [])
      else (.rej .AlreadyClosed, s, [])

/-- Exact-integer pool: the mathematical sum of all stored bet amounts (what
the spec's step 1 demands of `totalPool`, with no wrap-around). -/
def totalPoolExact (l : Ledger) : ℤ := (l.map fun e => e.2.betamount).sum

/-- Exact-integer per-value total: the mathematical sum of the amounts bet on
value `v`. -/
def totalForValueExact (l : Ledger) (v : String) : ℤ :=
  ((l.filter fun e => decide (e.2.betisforvalue = v)).map fun e => e.2.betamount).sum

/-- One entry of the exact-integer settlement: a winning wager receives
`floor((wagerAmount * totalPool) / totalForWinning)` (floor division `Int.ediv`
over exact integers); zero payouts are skipped. -/
def exactPayoutEntry (winning : String) (tWin pool : ℤ) (e : String × Bet) :
    Option (String × ℤ) :=
  if e.2.betisforvalue = winning then
    let x := (e.2.betamount * pool) / tWin
    if 0 < x then some (e.1, x) else none
  else none

/-- The spec's exact-integer settlement policy: each winning wager receives
`floor((wagerAmount / totalForOutcome[winningLabel]) * totalPool)`, computed
with exact integer arithmetic; zero payouts are skipped.  This is the
reference policy the conservation property is stated against. -/
def settleExact (l : Ledger) (winning : String) : List (String × ℤ) :=
  l.filterMap (exactPayoutEntry winning (totalForValueExact l winning) (totalPoolExact l))

/-- One invocation of `bet`: the calling wallet, the transaction timestamp,
the IOTA sent along, and the `BETVALUE` parameter. -/
structure BetCall where
  caller : String
  now : ℤ
  incoming : ℤ
  betvalue : Option String
deriving DecidableEq, Repr

/-- The state left behind by one `bet` invocation. -/
def betStep (s : ContractState) (c : BetCall) : ContractState :=
  (bet s c.caller c.now c.incoming c.betvalue).2

/-- The state after a sequence of `bet` invocations. -/
def runBets (s : ContractState) (calls : List BetCall) : ContractState :=
  calls.foldl betStep s

/-- Whether a `bet` invocation is accepted (records a wager) against deadline
`d`: the timing gate passes, the `BETVALUE` parameter is present, and the
amount survives the `i32` round-trip. -/
def acceptedB (d : ℤ) (c : BetCall) : Bool :=
  (decide (d = 0) || decide (c.now ≤ d)) && c.betvalue.isSome &&
    (decide (i32min ≤ c.incoming) && decide (c.incoming ≤ i32max))

/-- The stored ledger of a state (empty when the container entry is unset). -/
def ledgerOf (s : ContractState) : Ledger := s.container.getD []

/-! ### Association-list lemmas -/

theorem keysOf_insertBet (l : Ledger) (k : String) (b : Bet) :
    keysOf (insertBet l k b) = if k ∈ keysOf l then keysOf l else keysOf l ++ [k] := by
  induction l with
  | nil => simp [insertBet, keysOf]
  | cons e t ih =>
    obtain ⟨k', b'⟩ := e
    by_cases h : k' = k
    · subst h; simp [insertBet, keysOf]
    · have hne : ¬ k ∈ [k'] := by simp [Ne.symm h]
      by_cases hm : k ∈ keysOf t <;>
        simp_all [insertBet, keysOf, h, hm, Ne.symm h]

theorem nodup_keysOf_insertBet (l : Ledger) (k : String) (b : Bet)
    (h : (keysOf l).Nodup) : (keysOf (insertBet l k b)).Nodup := by
  rw [keysOf_insertBet]
  split
  · exact h
  · next hn => simp [List.nodup_append, h, hn]

theorem toFinset_keysOf_insertBet (l : Ledger) (k : String) (b : Bet) :
    (keysOf (insertBet l k b)).toFinset = insert k (keysOf l).toFinset := by
  rw [keysOf_insertBet]
  split
  · next hm =>
    rw [Finset.insert_eq_self.mpr (List.mem_toFinset.mpr hm)]
  · next hn =>
    simp [List.toFinset_append, Finset.insert_eq, Finset.union_comm]

theorem length_insertBet (l : Ledger) (k : String) (b : Bet) :
    (insertBet l k b).length = if k ∈ keysOf l then l.length else l.length + 1 := by
  have h1 : (insertBet l k b).length = (keysOf (insertBet l k b)).length := by
    simp [keysOf]
  have h2 : (keysOf l).length = l.length := by simp [keysOf]
  rw [h1, keysOf_insertBet]
  split <;> simp [h2]

theorem lookupBet_insertBet_self (l : Ledger) (k : String) (b : Bet) :
    lookupBet (insertBet l k b) k = some b := by
  induction l with
  | nil => simp [insertBet, lookupBet]
  | cons e t ih =>
    obtain ⟨k', b'⟩ := e
    by_cases h : k' = k <;> simp [insertBet, lookupBet, h, ih]

/-! ### Behaviour of `bet` -/

theorem gate_iff (d now : ℤ) : (d = 0 ∨ (d ≠ 0 ∧ now ≤ d)) ↔ (d = 0 ∨ now ≤ d) := by
  by_cases h : d = 0 <;> simp [h]

theorem bet_frame (s : ContractState) (c : String) (now inc : ℤ) (bv : Option String) :
    (bet s c now inc bv).2.creator = s.creator ∧
    (bet s c now inc bv).2.marketclosed = s.marketclosed ∧
    (bet s c now inc bv).2.betenddatetime = s.betenddatetime := by
  unfold bet
  split
  · cases bv with
    | none => exact ⟨rfl, rfl, rfl⟩
    | some v =>
      dsimp only
      split
      · exact ⟨rfl, rfl, rfl⟩
      · exact ⟨rfl, rfl, rfl⟩
  · exact ⟨rfl, rfl, rfl⟩

theorem bet_ok_iff (s : ContractState) (c : String) (now inc : ℤ) (bv : Option String) :
    (bet s c now inc bv).1 = .ok ↔
      acceptedB s.betenddatetime ⟨c, now, inc, bv⟩ = true := by
  unfold bet acceptedB
  by_cases h1 : s.betenddatetime = 0 ∨ (s.betenddatetime ≠ 0 ∧ now ≤ s.betenddatetime)
  · cases bv with
    | none => simp [h1, (gate_iff s.betenddatetime now).mp h1]
    | some v =>
      by_cases h2 : inc < i32min ∨ i32max < inc
      · simp only [h1, if_true]
        dsimp only
        rw [if_pos h2]
        simp [(gate_iff s.betenddatetime now).mp h1]
        omega
      · simp only [h1, if_true]
        dsimp only
        rw [if_neg h2]
        simp [(gate_iff s.betenddatetime now).mp h1]
        omega
  · have h1' : ¬ (s.betenddatetime = 0 ∨ now ≤ s.betenddatetime) := by
      rw [← gate_iff]; exact h1
    simp [h1, h1']

theorem bet_rej_state (s : ContractState) (c : String) (now inc : ℤ)
    (bv : Option String) (r : Rejection)
    (h : (bet s c now inc bv).1 = .rej r) : (bet s c now inc bv).2 = s := by
  by_cases h1 : s.betenddatetime = 0 ∨ (s.betenddatetime ≠ 0 ∧ now ≤ s.betenddatetime)
  · cases bv with
    | none => simp [bet, h1]
    | some v =>
      by_cases h2 : inc < i32min ∨ i32max < inc
      · simp [bet, h1, h2]
      · simp [bet, h1, h2] at h
  · simp [bet, h1]

theorem bet_ok_state (s : ContractState) (c : String) (now inc : ℤ) (v : String)
    (h : (bet s c now inc (some v)).1 = .ok) :
    (bet s c now inc (some v)).2 =
      { s with betvaluemap := insertStr s.betvaluemap c v,
               container := some (insertBet (s.container.getD []) c ⟨inc, v⟩) } := by
  by_cases h1 : s.betenddatetime = 0 ∨ (s.betenddatetime ≠ 0 ∧ now ≤ s.betenddatetime)
  · by_cases h2 : inc < i32min ∨ i32max < inc
    · simp [bet, h1, h2] at h
    · simp [bet, h1, h2]
  · simp [bet, h1] at h

/-! ### Behaviour of `closemarket` -/

theorem closemarket_frame (s : ContractState) (c : String) (bv : Option String)
    (now : ℤ) :
    (closemarket s c bv now).2.1.creator = s.creator ∧
    (closemarket s c bv now).2.1.betenddatetime = s.betenddatetime ∧
    (closemarket s c bv now).2.1.container = s.container ∧
    (closemarket s c bv now).2.1.betvaluemap = s.betvaluemap := by
  by_cases hauth : c ≠ s.creator
  · simp [closemarket, hauth]
  · cases bv with
    | none => simp [closemarket, hauth]
    | some w =>
      by_cases hcl : s.marketclosed = "false"
      · by_cases hg : s.betenddatetime = 0 ∨ (s.betenddatetime ≠ 0 ∧ s.betenddatetime < now)
        · cases hcont : s.container with
          | none => simp [closemarket, hauth, hcl, hg, hcont]
          | some led =>
            by_cases hlen : 1 ≤ led.length <;>
              simp [closemarket, hauth, hcl, hg, hcont, hlen]
        · simp [closemarket, hauth, hcl, hg]
      · simp [closemarket, hauth, hcl]

theorem closemarket_cases (s : ContractState) (c : String) (bv : Option String)
    (now : ℤ) :
    (∃ r, (closemarket s c bv now).1 = .rej r ∧ r ≠ .NoBets ∧
      (closemarket s c bv now).2.1 = s ∧ (closemarket s c bv now).2.2 = []) ∨
    ((closemarket s c bv now).1 = .rej .NoBets ∧
      (closemarket s c bv now).2.1 = { s with marketclosed := "true" } ∧
      (closemarket s c bv now).2.2 = []) ∨
    ((closemarket s c bv now).1 = .ok ∧ c = s.creator ∧ s.marketclosed = "false" ∧
      (closemarket s c bv now).2.1 = { s with marketclosed := "true" } ∧
      ∃ led w, s.container = some led ∧ bv = some w ∧ 1 ≤ led.length ∧
        (closemarket s c bv now).2.2 = settle led w) := by
  by_cases hauth : c ≠ s.creator
  · exact Or.inl ⟨.Unauthorized, by simp [closemarket, hauth]⟩
  · cases bv with
    | none => exact Or.inl ⟨.MissingParameter, by simp [closemarket, hauth]⟩
    | some w =>
      by_cases hcl : s.marketclosed = "false"
      · by_cases hg : s.betenddatetime = 0 ∨ (s.betenddatetime ≠ 0 ∧ s.betenddatetime < now)
        · cases hcont : s.container with
          | none =>
            exact Or.inr (Or.inl (by simp [closemarket, hauth, hcl, hg, hcont]))
          | some led =>
            by_cases hlen : 1 ≤ led.length
            · refine Or.inr (Or.inr ⟨by simp [closemarket, hauth, hcl, hg, hcont, hlen],
                not_not.mp hauth, hcl,
                by simp [closemarket, hauth, hcl, hg, hcont, hlen], led, w, rfl, rfl,
                hlen, by simp [closemarket, hauth, hcl, hg, hcont, hlen]⟩)
            · exact Or.inr (Or.inl (by simp [closemarket, hauth, hcl, hg, hcont, hlen]))
        · exact Or.inl ⟨.TooEarly, by simp [closemarket, hauth, hcl, hg]⟩
      · exact Or.inl ⟨.AlreadyClosed, by simp [closemarket, hauth, hcl]⟩

theorem closemarket_already (s : ContractState) (c : String) (w : String) (now : ℤ)
    (hc : c = s.creator) (hm : s.marketclosed ≠ "false") :
    closemarket s c (some w) now = (.rej .AlreadyClosed, s, []) := by
  simp [closemarket, hc, hm]

theorem closemarket_ok_state (s : ContractState) (c : String) (bv : Option String)
    (now : ℤ) (h : (closemarket s c bv now).1 = .ok) :
    (closemarket s c bv now).2.1 = { s with marketclosed := "true" } ∧
    c = s.creator := by
  rcases closemarket_cases s c bv now with ⟨r, hr, _, _, _⟩ | ⟨hr, _, _⟩ | ⟨_, hc, _, hs, _⟩
  · rw [h] at hr; exact absurd hr.symm (by simp)
  · rw [h] at hr; exact absurd hr.symm (by simp)
  · exact ⟨hs, hc⟩

/-! ### Exact-integer conservation lemmas -/

theorem ediv_add_ediv_le (x y t : ℤ) (ht : 0 < t) :
    x / t + y / t ≤ (x + y) / t := by
  have hx : x / t * t ≤ x := by
    have h1 := Int.ediv_add_emod x t
    have h2 := Int.emod_nonneg x (ne_of_gt ht)
    rw [mul_comm]; linarith
  have hy : y / t * t ≤ y := by
    have h1 := Int.ediv_add_emod y t
    have h2 := Int.emod_nonneg y (ne_of_gt ht)
    rw [mul_comm]; linarith
  rw [Int.le_ediv_iff_mul_le ht, add_mul]
  exact add_le_add hx hy

theorem sum_map_ediv_le (t pool : ℤ) (amts : List ℤ) (ht : 0 < t) :
    (amts.map fun a => (a * pool) / t).sum ≤ (amts.sum * pool) / t := by
  induction amts with
  | nil => simp
  | cons a l ih =>
    simp only [List.map_cons, List.sum_cons]
    calc (a * pool) / t + (l.map fun a => (a * pool) / t).sum
        ≤ (a * pool) / t + (l.sum * pool) / t := by linarith
      _ ≤ (a * pool + l.sum * pool) / t := ediv_add_ediv_le _ _ t ht
      _ = ((a + l.sum) * pool) / t := by rw [add_mul]

theorem settleEntries_sum_le (l : Ledger) (w : String) (t pool : ℤ)
    (hamt : ∀ e ∈ l, 0 ≤ e.2.betamount) (ht : 0 ≤ t) (hpool : 0 ≤ pool) :
    ((l.filterMap (exactPayoutEntry w t pool)).map Prod.snd).sum ≤
      (((l.filter fun e => decide (e.2.betisforvalue = w)).map
          fun e => e.2.betamount).map fun a => (a * pool) / t).sum := by
  induction l with
  | nil => simp
  | cons e l ih =>
    have he : 0 ≤ e.2.betamount := hamt e (by simp)
    have hl := fun e' h' => hamt e' (List.mem_cons_of_mem e h')
    have hnn : 0 ≤ (e.2.betamount * pool) / t :=
      Int.ediv_nonneg (mul_nonneg he hpool) ht
    by_cases hw : e.2.betisforvalue = w
    · by_cases hx : 0 < (e.2.betamount * pool) / t
      · rw [List.filterMap_cons_some
            (show exactPayoutEntry w t pool e = some (e.1, (e.2.betamount * pool) / t) by
              simp [exactPayoutEntry, hw, hx]),
          List.filter_cons_of_pos (by simp [hw])]
        simp only [List.map_cons, List.sum_cons]
        exact add_le_add_left (ih hl) _
      · rw [List.filterMap_cons_none (by simp [exactPayoutEntry, hw, hx]),
          List.filter_cons_of_pos (by simp [hw])]
        simp only [List.map_cons, List.sum_cons]
        linarith [ih hl]
    · rw [List.filterMap_cons_none (by simp [exactPayoutEntry, hw]),
        List.filter_cons_of_neg (by simp [hw])]
      exact ih hl

theorem totalPoolExact_nonneg (l : Ledger) (hamt : ∀ e ∈ l, 0 ≤ e.2.betamount) :
    0 ≤ totalPoolExact l := by
  refine List.sum_nonneg ?_
  intro x hx
  obtain ⟨e, he, rfl⟩ := List.mem_map.mp hx
  exact hamt e he

theorem totalForValueExact_nonneg (l : Ledger) (w : String)
    (hamt : ∀ e ∈ l, 0 ≤ e.2.betamount) : 0 ≤ totalForValueExact l w := by
  refine List.sum_nonneg ?_
  intro x hx
  obtain ⟨e, he, rfl⟩ := List.mem_map.mp hx
  exact hamt e (List.mem_of_mem_filter he)

/-! ### Sequences of `bet` calls -/

theorem betStep_accepted (s : ContractState) (c : BetCall) (v : String)
    (hv : c.betvalue = some v) (h : acceptedB s.betenddatetime c = true) :
    betStep s c =
      { s with betvaluemap := insertStr s.betvaluemap c.caller v,
               container :=
                 some (insertBet (s.container.getD []) c.caller ⟨c.incoming, v⟩) } := by
  have hok : (bet s c.caller c.now c.incoming c.betvalue).1 = .ok :=
    (bet_ok_iff s c.caller c.now c.incoming c.betvalue).mpr h
  rw [hv] at hok
  unfold betStep
  rw [hv]
  exact bet_ok_state s c.caller c.now c.incoming v hok

theorem betStep_rejected (s : ContractState) (c : BetCall)
    (h : ¬ acceptedB s.betenddatetime c = true) : betStep s c = s := by
  cases hr : (bet s c.caller c.now c.incoming c.betvalue).1 with
  | ok => exact absurd ((bet_ok_iff s c.caller c.now c.incoming c.betvalue).mp hr) h
  | rej r => exact bet_rej_state s c.caller c.now c.incoming c.betvalue r hr

theorem betStep_deadline (s : ContractState) (c : BetCall) :
    (betStep s c).betenddatetime = s.betenddatetime :=
  (bet_frame s c.caller c.now c.incoming c.betvalue).2.2

theorem runBets_deadline (cs : List BetCall) (s : ContractState) :
    (runBets s cs).betenddatetime = s.betenddatetime := by
  induction cs generalizing s with
  | nil => rfl
  | cons c cs ih =>
    have : runBets s (c :: cs) = runBets (betStep s c) cs := rfl
    rw [this, ih, betStep_deadline]

theorem runBets_inv (cs : List BetCall) :
    ∀ s : ContractState, (keysOf (ledgerOf s)).Nodup →
      (keysOf (ledgerOf (runBets s cs))).Nodup ∧
      (keysOf (ledgerOf (runBets s cs))).toFinset =
        (keysOf (ledgerOf s)).toFinset ∪
          ((cs.filter (acceptedB s.betenddatetime)).map BetCall.caller).toFinset := by
  induction cs with
  | nil => intro s h; simpa [runBets] using h
  | cons c cs ih =>
    intro s h
    have hrun : runBets s (c :: cs) = runBets (betStep s c) cs := rfl
    by_cases hacc : acceptedB s.betenddatetime c = true
    · obtain ⟨v, hv⟩ : ∃ v, c.betvalue = some v := by
        cases hbv : c.betvalue with
        | none => rw [acceptedB, hbv] at hacc; simp at hacc
        | some v => exact ⟨v, rfl⟩
      have hL : ledgerOf (betStep s c) =
          insertBet (ledgerOf s) c.caller ⟨c.incoming, v⟩ := by
        rw [betStep_accepted s c v hv hacc]; rfl
      have hnd : (keysOf (ledgerOf (betStep s c))).Nodup := by
        rw [hL]; exact nodup_keysOf_insertBet _ _ _ h
      obtain ⟨ih1, ih2⟩ := ih (betStep s c) hnd
      refine ⟨by rw [hrun]; exact ih1, ?_⟩
      rw [hrun, ih2, betStep_deadline, hL, toFinset_keysOf_insertBet,
        List.filter_cons_of_pos hacc, List.map_cons, List.toFinset_cons,
        Finset.insert_union, Finset.union_insert]
    · have hstep : betStep s c = s := betStep_rejected s c hacc
      have hd : (c :: cs).filter (acceptedB s.betenddatetime) =
          cs.filter (acceptedB s.betenddatetime) :=
        List.filter_cons_of_neg (by simpa using hacc)
      obtain ⟨ih1, ih2⟩ := ih s h
      rw [hrun, hstep, hd]
      exact ⟨ih1, ih2⟩

theorem runBets_append_last (s0 : ContractState) (pre : List BetCall) (c : BetCall)
    (v : String) (hv : c.betvalue = some v)
    (hacc : acceptedB s0.betenddatetime c = true) :
    lookupBet (ledgerOf (runBets s0 (pre ++ [c]))) c.caller =
      some ⟨c.incoming, v⟩ := by
  have hsplit : runBets s0 (pre ++ [c]) = betStep (runBets s0 pre) c := by
    simp [runBets, List.foldl_append]
  have hacc' : acceptedB (runBets s0 pre).betenddatetime c = true := by
    rw [runBets_deadline]; exact hacc
  rw [hsplit, betStep_accepted _ c v hv hacc']
  show lookupBet (insertBet _ c.caller ⟨c.incoming, v⟩) c.caller = _
  exact lookupBet_insertBet_self _ _ _

/-! ### Claim theorems -/

/-- C1: settlement computes pari-mutuel payouts proportional to each winning
wager's share of the stake on the winning label: for the ledger
Alice: 100 on "yes", Bob: 300 on "yes", Carol: 600 on "no" and winning label
"yes", `closemarket` issues a payout of exactly 250 to Alice and exactly 750
to Bob, and nothing to Carol (the transfer list has no other entry). -/
theorem C1_scenarioA_payouts :
    closemarket
      ⟨"owner", "false", 0,
        some [("Alice", ⟨100, "yes"⟩), ("Bob", ⟨300, "yes"⟩), ("Carol", ⟨600, "no"⟩)],
        []⟩
      "owner" (some "yes") 1 =
    (.ok,
      ⟨"owner", "true", 0,
        some [("Alice", ⟨100, "yes"⟩), ("Bob", ⟨300, "yes"⟩), ("Carol", ⟨600, "no"⟩)],
        []⟩,
      [("Alice", 250), ("Bob", 750)]) := by decide

/-- C2 counterexample: the payout is computed through `f32`, and for a single
wager of 2000000100 the `i32`-to-`f32` conversion rounds up to 2000000128, so
`closemarket` pays out 2000000128 — strictly more than the total pool
2000000100.  The sum of payouts is NOT always at most the pool. -/
theorem C2_cex_payout_exceeds_pool :
    ((closemarket ⟨"o", "false", 0, some [("W", ⟨2000000100, "yes"⟩)], []⟩
        "o" (some "yes") 1).2.2.map Prod.snd).sum = 2000000128 ∧
    totalPoolExact [("W", ⟨2000000100, "yes"⟩)] = 2000000100 ∧
    ¬ ((closemarket ⟨"o", "false", 0, some [("W", ⟨2000000100, "yes"⟩)], []⟩
        "o" (some "yes") 1).2.2.map Prod.snd).sum ≤
      totalPoolExact [("W", ⟨2000000100, "yes"⟩)] := by decide

/-- C2 (amended): under the spec's exact-integer settlement policy
(`floor(wagerAmount * totalPool / totalForWinning)`, no floating point), the
sum of all payouts is at most the total pool for every ledger of nonnegative
wager amounts; the code's `f32` computation does not guarantee this bound. -/
theorem C2_exact_conservation (l : Ledger) (w : String)
    (hamt : ∀ e ∈ l, 0 ≤ e.2.betamount) :
    ((settleExact l w).map Prod.snd).sum ≤ totalPoolExact l := by
  have hpool : 0 ≤ totalPoolExact l := totalPoolExact_nonneg l hamt
  have ht : 0 ≤ totalForValueExact l w := totalForValueExact_nonneg l w hamt
  rcases eq_or_lt_of_le ht with ht0 | htpos
  · have hnil : settleExact l w = [] := by
      unfold settleExact
      rw [List.filterMap_eq_nil_iff]
      intro e he
      simp [exactPayoutEntry, ← ht0]
    rw [hnil]; simpa using hpool
  · calc ((settleExact l w).map Prod.snd).sum
        ≤ (((l.filter fun e => decide (e.2.betisforvalue = w)).map
              fun e => e.2.betamount).map
            fun a => (a * totalPoolExact l) / totalForValueExact l w).sum :=
          settleEntries_sum_le l w _ _ hamt ht hpool
      _ ≤ ((((l.filter fun e => decide (e.2.betisforvalue = w)).map
              fun e => e.2.betamount).sum) * totalPoolExact l) /
            totalForValueExact l w :=
          sum_map_ediv_le _ _ _ htpos
      _ = (totalForValueExact l w * totalPoolExact l) / totalForValueExact l w := rfl
      _ = totalPoolExact l := Int.mul_ediv_cancel_left _ (ne_of_gt htpos)

/-- C2 witness: the exact-integer conservation bound at Scenario A. -/
theorem C2_exact_conservation_witness :
    ((settleExact
        [("Alice", ⟨100, "yes"⟩), ("Bob", ⟨300, "yes"⟩), ("Carol", ⟨600, "no"⟩)]
        "yes").map Prod.snd).sum ≤
      totalPoolExact
        [("Alice", ⟨100, "yes"⟩), ("Bob", ⟨300, "yes"⟩), ("Carol", ⟨600, "no"⟩)] :=
  C2_exact_conservation _ "yes" (by decide)

/-- C6: the settlement's `totalPool` accumulation is `i32` arithmetic, which
wraps: for two stored wagers of 2000000000 each, the computed pool is
-294967296 while the mathematical sum of the stored amounts is 4000000000, so
the accumulation does silently overflow (the spec demands a 64-bit-wide
accumulation precisely to rule this out). -/
theorem C6_pool_accumulation_overflows :
    totalPoolW [("a", ⟨2000000000, "yes"⟩), ("b", ⟨2000000000, "yes"⟩)] = -294967296 ∧
    totalPoolExact [("a", ⟨2000000000, "yes"⟩), ("b", ⟨2000000000, "yes"⟩)] =
      4000000000 ∧
    totalPoolW [("a", ⟨2000000000, "yes"⟩), ("b", ⟨2000000000, "yes"⟩)] ≠
      totalPoolExact [("a", ⟨2000000000, "yes"⟩), ("b", ⟨2000000000, "yes"⟩)] := by
  decide

/-- C9: calling `closemarket` before `initmarket` has ever run is a silent
no-op: the `marketclosed` entry defaults to the empty string, which differs
from "false", so for any such state the call leaves the state unchanged and
issues no transfers, and when the caller is the creator and the winning
parameter is present it takes the already-closed branch. -/
theorem C9_uninitialized_close_noop (s : ContractState) (c : String)
    (bv : Option String) (now : ℤ) (h : s.marketclosed = "") :
    (closemarket s c bv now).2.1 = s ∧ (closemarket s c bv now).2.2 = [] ∧
    (c = s.creator → ∀ w, bv = some w →
      (closemarket s c bv now).1 = .rej .AlreadyClosed) := by
  have hm : s.marketclosed ≠ "false" := by rw [h]; simp
  by_cases hauth : c ≠ s.creator
  · refine ⟨by simp [closemarket, hauth], by simp [closemarket, hauth], ?_⟩
    intro hc
    exact absurd hc hauth
  · cases bv with
    | none =>
      refine ⟨by simp [closemarket, hauth], by simp [closemarket, hauth], ?_⟩
      intro _ w hw
      exact absurd hw (by simp)
    | some w =>
      have hres := closemarket_already s c w now (not_not.mp hauth) hm
      refine ⟨by rw [hres], by rw [hres], ?_⟩
      intro _ w' _
      rw [hres]

/-- C9 witness: the uninitialized no-op at a concrete state. -/
theorem C9_uninitialized_close_noop_witness :
    (closemarket ⟨"o", "", 0, none, []⟩ "o" (some "yes") 5).2.1 =
      ⟨"o", "", 0, none, []⟩ ∧
    (closemarket ⟨"o", "", 0, none, []⟩ "o" (some "yes") 5).2.2 = [] ∧
    (closemarket ⟨"o", "", 0, none, []⟩ "o" (some "yes") 5).1 =
      .rej .AlreadyClosed := by
  obtain ⟨h1, h2, h3⟩ :=
    C9_uninitialized_close_noop ⟨"o", "", 0, none, []⟩ "o" (some "yes") 5 rfl
  exact ⟨h1, h2, h3 rfl "yes" rfl⟩

/-- C3 counterexample: a `NoBets` rejection is not atomic — for an initialized
open market with no stored bets, the creator's `closemarket` call takes the
no-bets branch yet still flips the `marketclosed` flag, so the persisted state
after the call differs from the state before it. -/
theorem C3_cex_nobets_mutates :
    (closemarket ⟨"o", "false", 0, none, []⟩ "o" (some "yes") 1).1 = .rej .NoBets ∧
    (closemarket ⟨"o", "false", 0, none, []⟩ "o" (some "yes") 1).2.1 ≠
      ⟨"o", "false", 0, none, []⟩ := by decide

/-- C3 (amended): every rejection other than `BettingClosed` and `NoBets`
leaves the persisted state exactly as it was (and a rejected `closemarket`
issues no transfers); a `NoBets` rejection leaves the creator, the deadline,
the bet container and the per-caller value map unchanged but sets the closed
flag to "true".  (`BettingClosed` rejections also leave the state unchanged.) -/
theorem C3_rejections_atomic_except_nobets (s : ContractState) (c : String) :
    (∀ p r, (initmarket s c p).1 = .rej r → (initmarket s c p).2 = s) ∧
    (∀ now inc bv r, (bet s c now inc bv).1 = .rej r → (bet s c now inc bv).2 = s) ∧
    (∀ bv now r, r ≠ .NoBets → (closemarket s c bv now).1 = .rej r →
      (closemarket s c bv now).2.1 = s ∧ (closemarket s c bv now).2.2 = []) ∧
    (∀ bv now, (closemarket s c bv now).1 = .rej .NoBets →
      (closemarket s c bv now).2.1 = { s with marketclosed := "true" } ∧
      (closemarket s c bv now).2.2 = []) := by
  refine ⟨?_, ?_, ?_, ?_⟩
  · intro p r h
    by_cases hauth : c ≠ s.creator
    · simp [initmarket, hauth]
    · by_cases hp : p = ""
      · simp [initmarket, hauth, hp] at h
      · cases hpp : parseBetEndUTC p with
        | none => simp [initmarket, hauth, hp, hpp]
        | some t => simp [initmarket, hauth, hp, hpp] at h
  · intro now inc bv r h
    exact bet_rej_state s c now inc bv r h
  · intro bv now r hr h
    rcases closemarket_cases s c bv now with
      ⟨r', hr', _, hs, htr⟩ | ⟨hr', _, _⟩ | ⟨hok, _⟩
    · exact ⟨hs, htr⟩
    · have h2 : CallR.rej r = CallR.rej .NoBets := h.symm.trans hr'
      injection h2 with h3
      exact absurd h3 hr
    · exact absurd (hok.symm.trans h) (by simp)
  · intro bv now h
    rcases closemarket_cases s c bv now with
      ⟨r', hr', hrne, _, _⟩ | ⟨_, hs, htr⟩ | ⟨hok, _⟩
    · have h2 : CallR.rej r' = CallR.rej .NoBets := hr'.symm.trans h
      injection h2 with h3
      exact absurd h3 hrne
    · exact ⟨hs, htr⟩
    · exact absurd (hok.symm.trans h) (by simp)

/-- C3 witness: an unauthorized `initmarket` call leaves a concrete state
unchanged. -/
theorem C3_rejections_atomic_witness :
    (initmarket ⟨"o", "", 0, none, []⟩ "eve" "").2 = ⟨"o", "", 0, none, []⟩ :=
  (C3_rejections_atomic_except_nobets ⟨"o", "", 0, none, []⟩ "eve").1 ""
    .Unauthorized (by decide)

/-- C5: the timing gate of `bet` is exact — given the `BETVALUE` parameter is
present (and the sent amount survives the `i32` round-trip the code performs),
the wager is recorded if and only if the stored deadline is the unset sentinel
0 or `now <= deadline`; in particular with deadline 0 a bet is never rejected
for timing reasons, whatever `now` is.  A rejected call leaves the state
unchanged, and a recorded call stores exactly the caller's wager. -/
theorem C5_timing_gate (s : ContractState) (c : String) (now inc : ℤ) (v : String)
    (hlo : i32min ≤ inc) (hhi : inc ≤ i32max) :
    (((bet s c now inc (some v)).1 = .ok) ↔
      (s.betenddatetime = 0 ∨ now ≤ s.betenddatetime)) ∧
    ((bet s c now inc (some v)).1 = .ok →
      lookupBet (ledgerOf ((bet s c now inc (some v)).2)) c = some ⟨inc, v⟩) ∧
    ((bet s c now inc (some v)).1 ≠ .ok → (bet s c now inc (some v)).2 = s) := by
  refine ⟨?_, ?_, ?_⟩
  · rw [bet_ok_iff]
    simp [acceptedB, hlo, hhi]
  · intro h
    rw [bet_ok_state s c now inc v h]
    show lookupBet (insertBet _ c ⟨inc, v⟩) c = _
    exact lookupBet_insertBet_self _ _ _
  · intro h
    cases hr : (bet s c now inc (some v)).1 with
    | ok => exact absurd hr h
    | rej r => exact bet_rej_state s c now inc (some v) r hr

/-- C5 witness: the gate at a concrete open-deadline state. -/
theorem C5_timing_gate_witness :
    (((bet ⟨"o", "false", 0, none, []⟩ "A" 5 10 (some "yes")).1 = .ok) ↔
      ((⟨"o", "false", 0, none, []⟩ : ContractState).betenddatetime = 0 ∨
        (5 : ℤ) ≤ (⟨"o", "false", 0, none, []⟩ : ContractState).betenddatetime)) ∧
    ((bet ⟨"o", "false", 0, none, []⟩ "A" 5 10 (some "yes")).1 = .ok →
      lookupBet (ledgerOf ((bet ⟨"o", "false", 0, none, []⟩ "A" 5 10 (some "yes")).2))
        "A" = some ⟨10, "yes"⟩) ∧
    ((bet ⟨"o", "false", 0, none, []⟩ "A" 5 10 (some "yes")).1 ≠ .ok →
      (bet ⟨"o", "false", 0, none, []⟩ "A" 5 10 (some "yes")).2 =
        ⟨"o", "false", 0, none, []⟩) :=
  C5_timing_gate ⟨"o", "false", 0, none, []⟩ "A" 5 10 "yes" (by decide) (by decide)

/-- C4 counterexample: after `closemarket` has successfully run (the closed
flag is set to "true") and with the deadline left at the unset sentinel 0, a
subsequent `bet` call still records a wager in the ledger — `bet` never
consults the closed flag. -/
theorem C4_cex_bet_recorded_after_close :
    (closemarket ⟨"o", "false", 0, some [("A", ⟨100, "yes"⟩)], []⟩
        "o" (some "yes") 1).1 = .ok ∧
    (closemarket ⟨"o", "false", 0, some [("A", ⟨100, "yes"⟩)], []⟩
        "o" (some "yes") 1).2.1.marketclosed = "true" ∧
    (bet (closemarket ⟨"o", "false", 0, some [("A", ⟨100, "yes"⟩)], []⟩
        "o" (some "yes") 1).2.1 "B" 5 50 (some "no")).1 = .ok ∧
    lookupBet (ledgerOf ((bet (closemarket
        ⟨"o", "false", 0, some [("A", ⟨100, "yes"⟩)], []⟩
        "o" (some "yes") 1).2.1 "B" 5 50 (some "no")).2)) "B" =
      some ⟨50, "no"⟩ := by decide

/-- C4 (amended): `bet` is gated only by the deadline, never by the closed
flag: after any successful `closemarket`, a bet whose timing gate passes
(deadline unset or `now <= deadline`, parameter present, amount in `i32`)
is still recorded; bets after closing are prevented only when a nonzero
deadline has passed at the bet's timestamp. -/
theorem C4_bet_ignores_closed_flag (s s1 : ContractState) (cc w : String)
    (now1 : ℤ) (tr : List (String × ℤ))
    (hclose : closemarket s cc (some w) now1 = (.ok, s1, tr))
    (c : String) (now2 inc : ℤ) (v : String)
    (hlo : i32min ≤ inc) (hhi : inc ≤ i32max)
    (hgate : s1.betenddatetime = 0 ∨ now2 ≤ s1.betenddatetime) :
    s1.marketclosed = "true" ∧
    (bet s1 c now2 inc (some v)).1 = .ok ∧
    lookupBet (ledgerOf ((bet s1 c now2 inc (some v)).2)) c = some ⟨inc, v⟩ := by
  have hok : (closemarket s cc (some w) now1).1 = .ok := by rw [hclose]
  have hs1eq : (closemarket s cc (some w) now1).2.1 = s1 := by rw [hclose]
  have hflag : s1.marketclosed = "true" := by
    have hh := (closemarket_ok_state s cc (some w) now1 hok).1
    rw [hs1eq] at hh
    rw [hh]
  have hbok : (bet s1 c now2 inc (some v)).1 = .ok := by
    rw [bet_ok_iff]
    simp [acceptedB, hlo, hhi]
    exact hgate
  refine ⟨hflag, hbok, ?_⟩
  rw [bet_ok_state s1 c now2 inc v hbok]
  show lookupBet (insertBet _ c ⟨inc, v⟩) c = _
  exact lookupBet_insertBet_self _ _ _

/-- C4 witness: the amended fact at a concrete closed market. -/
theorem C4_bet_ignores_closed_flag_witness :
    (⟨"o", "true", 0, some [("A", ⟨100, "yes"⟩)], []⟩ : ContractState).marketclosed =
      "true" ∧
    (bet ⟨"o", "true", 0, some [("A", ⟨100, "yes"⟩)], []⟩ "B" 5 50 (some "no")).1 =
      .ok ∧
    lookupBet (ledgerOf ((bet ⟨"o", "true", 0, some [("A", ⟨100, "yes"⟩)], []⟩
        "B" 5 50 (some "no")).2)) "B" = some ⟨50, "no"⟩ :=
  C4_bet_ignores_closed_flag ⟨"o", "false", 0, some [("A", ⟨100, "yes"⟩)], []⟩
    ⟨"o", "true", 0, some [("A", ⟨100, "yes"⟩)], []⟩ "o" "yes" 1 [("A", 100)]
    (by decide) "B" 5 50 "no" (by decide) (by decide) (by decide)

/-- C7 counterexample: two `closemarket` calls where the second is NOT
rejected with `AlreadyClosed` — with a deadline of 100 and both calls at
timestamps before it, both calls take the too-early branch, so the second
rejection is `TooEarly`, not `AlreadyClosed`. -/
theorem C7_cex_second_close_not_alreadyclosed :
    (closemarket ⟨"o", "false", 100, some [("A", ⟨10, "yes"⟩)], []⟩
        "o" (some "yes") 50).1 = .rej .TooEarly ∧
    (closemarket
        ((closemarket ⟨"o", "false", 100, some [("A", ⟨10, "yes"⟩)], []⟩
            "o" (some "yes") 50).2.1)
        "o" (some "yes") 60).1 ≠ .rej .AlreadyClosed := by decide

/-- C7 (amended): if the first `closemarket` call performs the settlement
(returns ok), then every later `closemarket` call that passes the
authorization and parameter checks is rejected with `AlreadyClosed`, leaving
the state unchanged and issuing no transfers; and the stored bet container is
unchanged between the two calls (`closemarket` never writes it). -/
theorem C7_close_twice_alreadyclosed (s s1 : ContractState) (c1 w1 : String)
    (now1 : ℤ) (tr : List (String × ℤ))
    (hclose : closemarket s c1 (some w1) now1 = (.ok, s1, tr)) :
    (∀ w2 now2, closemarket s1 s1.creator (some w2) now2 =
      (.rej .AlreadyClosed, s1, [])) ∧
    s1.container = s.container := by
  have hok : (closemarket s c1 (some w1) now1).1 = .ok := by rw [hclose]
  have hs1eq : (closemarket s c1 (some w1) now1).2.1 = s1 := by rw [hclose]
  have hflag : s1.marketclosed = "true" := by
    have hh := (closemarket_ok_state s c1 (some w1) now1 hok).1
    rw [hs1eq] at hh
    rw [hh]
  have hcont : s1.container = s.container := by
    have hh := (closemarket_frame s c1 (some w1) now1).2.2.1
    rw [hs1eq] at hh
    exact hh
  refine ⟨?_, hcont⟩
  intro w2 now2
  exact closemarket_already s1 s1.creator w2 now2 rfl (by rw [hflag]; simp)

/-- C7 witness: a second close of a concretely closed market. -/
theorem C7_close_twice_alreadyclosed_witness :
    (∀ w2 now2,
      closemarket ⟨"o", "true", 0, some [("A", ⟨100, "yes"⟩)], []⟩ "o"
          (some w2) now2 =
        (.rej .AlreadyClosed, ⟨"o", "true", 0, some [("A", ⟨100, "yes"⟩)], []⟩, [])) ∧
    (⟨"o", "true", 0, some [("A", ⟨100, "yes"⟩)], []⟩ : ContractState).container =
      (⟨"o", "false", 0, some [("A", ⟨100, "yes"⟩)], []⟩ : ContractState).container :=
  C7_close_twice_alreadyclosed ⟨"o", "false", 0, some [("A", ⟨100, "yes"⟩)], []⟩
    ⟨"o", "true", 0, some [("A", ⟨100, "yes"⟩)], []⟩ "o" "yes" 1 [("A", 100)]
    (by decide)

/-- C10: `initmarket` writes only the closed flag and the deadline — its
result and outcome are independent of the stored container, and the
container, the per-caller value map and the creator are preserved; hence a
ledger recorded before a re-initialization is exactly the one a later
successful settlement consumes. -/
theorem C10_initmarket_preserves_container (s : ContractState) (c : String)
    (p : String) (X : Option Ledger) :
    ((initmarket { s with container := X } c p).1 = (initmarket s c p).1 ∧
     (initmarket { s with container := X } c p).2 =
       { (initmarket s c p).2 with container := X }) ∧
    (initmarket s c p).2.container = s.container ∧
    (initmarket s c p).2.betvaluemap = s.betvaluemap ∧
    (initmarket s c p).2.creator = s.creator ∧
    (∀ led w now s1, s.container = some led → 1 ≤ led.length →
      initmarket s c "" = (.ok, s1) →
      closemarket s1 s1.creator (some w) now =
        (.ok, { s1 with marketclosed := "true" }, settle led w)) := by
  have hmain : ∀ q : String,
      ((initmarket { s with container := X } c q).1 = (initmarket s c q).1 ∧
       (initmarket { s with container := X } c q).2 =
         { (initmarket s c q).2 with container := X }) := by
    intro q
    by_cases hauth : c ≠ s.creator
    · constructor <;> simp [initmarket, hauth]
    · by_cases hq : q = ""
      · constructor <;> simp [initmarket, hauth, hq]
      · cases hqq : parseBetEndUTC q with
        | none => constructor <;> simp [initmarket, hauth, hq, hqq]
        | some t => constructor <;> simp [initmarket, hauth, hq, hqq]
  have hframe : (initmarket s c p).2.container = s.container ∧
      (initmarket s c p).2.betvaluemap = s.betvaluemap ∧
      (initmarket s c p).2.creator = s.creator := by
    by_cases hauth : c ≠ s.creator
    · simp [initmarket, hauth]
    · by_cases hp : p = ""
      · simp [initmarket, hauth, hp]
      · cases hpp : parseBetEndUTC p with
        | none => simp [initmarket, hauth, hp, hpp]
        | some t => simp [initmarket, hauth, hp, hpp]
  refine ⟨hmain p, hframe.1, hframe.2.1, hframe.2.2, ?_⟩
  intro led w now s1 hled hlen hinit
  have hauth : ¬ c ≠ s.creator := by
    by_contra hc
    simp [initmarket, hc] at hinit
  have hs1 : s1 = { s with marketclosed := "false", betenddatetime := 0 } := by
    simp [initmarket, hauth, Prod.ext_iff] at hinit
    exact hinit.symm
  subst hs1
  simp [closemarket, hled, hlen]

/-- C10 witness: a re-initialization over a nonempty ledger followed by a
settlement that consumes exactly that ledger. -/
theorem C10_initmarket_preserves_container_witness :
    closemarket ⟨"o", "false", 0, some [("A", ⟨100, "yes"⟩)], [("A", "yes")]⟩
        (⟨"o", "false", 0, some [("A", ⟨100, "yes"⟩)], [("A", "yes")]⟩ :
          ContractState).creator
        (some "yes") 3 =
      (.ok,
        ⟨"o", "true", 0, some [("A", ⟨100, "yes"⟩)], [("A", "yes")]⟩,
        settle [("A", ⟨100, "yes"⟩)] "yes") :=
  (C10_initmarket_preserves_container
      ⟨"o", "x", 7, some [("A", ⟨100, "yes"⟩)], [("A", "yes")]⟩ "o" "" none).2.2.2.2
    [("A", ⟨100, "yes"⟩)] "yes" 3
    ⟨"o", "false", 0, some [("A", ⟨100, "yes"⟩)], [("A", "yes")]⟩
    rfl (by decide) (by decide)

/-- C8: starting from a state with no stored container, after any sequence of
`bet` calls the ledger holds exactly one wager per distinct bettor (its key
list has no duplicates), its size equals the number of distinct bettors whose
bets were accepted, and a bettor's entry is always the full replacement left
by their last accepted bet (amounts never accumulate). -/
theorem C8_one_wager_per_bettor (s0 : ContractState) (h0 : s0.container = none) :
    (∀ calls : List BetCall,
      (keysOf (ledgerOf (runBets s0 calls))).Nodup ∧
      (ledgerOf (runBets s0 calls)).length =
        ((calls.filter (acceptedB s0.betenddatetime)).map BetCall.caller).toFinset.card) ∧
    (∀ (pre : List BetCall) (c : BetCall) (v : String), c.betvalue = some v →
      acceptedB s0.betenddatetime c = true →
      lookupBet (ledgerOf (runBets s0 (pre ++ [c]))) c.caller =
        some ⟨c.incoming, v⟩) := by
  have hled0 : ledgerOf s0 = [] := by rw [ledgerOf, h0]; rfl
  constructor
  · intro calls
    obtain ⟨h1, h2⟩ := runBets_inv calls s0 (by rw [hled0]; exact List.nodup_nil)
    refine ⟨h1, ?_⟩
    have hkeys : (keysOf (ledgerOf (runBets s0 calls))).toFinset =
        ((calls.filter (acceptedB s0.betenddatetime)).map BetCall.caller).toFinset := by
      rw [h2, hled0]
      simp [keysOf]
    calc (ledgerOf (runBets s0 calls)).length
        = (keysOf (ledgerOf (runBets s0 calls))).length := by simp [keysOf]
      _ = (keysOf (ledgerOf (runBets s0 calls))).toFinset.card :=
          (List.toFinset_card_of_nodup h1).symm
      _ = _ := by rw [hkeys]
  · intro pre c v hv hacc
    exact runBets_append_last s0 pre c v hv hacc

/-- C8 witness: two accepted bets by the same bettor leave a single entry
holding the second wager. -/
theorem C8_one_wager_per_bettor_witness :
    lookupBet (ledgerOf (runBets ⟨"o", "false", 0, none, []⟩
        ([⟨"A", 1, 5, some "yes"⟩] ++ [⟨"A", 2, 7, some "no"⟩]))) "A" =
      some ⟨7, "no"⟩ :=
  (C8_one_wager_per_bettor ⟨"o", "false", 0, none, []⟩ rfl).2
    [⟨"A", 1, 5, some "yes"⟩] ⟨"A", 2, 7, some "no"⟩ "no" rfl (by decide)
